import Mathlib

/-!
# A verification model of `revImgSearch.py`

This file shallowly embeds the core of the local reverse-image-search
program (`src/revImgSearch.py`) in Lean 4 and proves or refutes the
specification claims about it.

The embedding covers:

* the fingerprint distance `_hamming`, which delegates to
  `Levenshtein.hamming(str1.hash_hex, str2.hash_hex, pad=True)` from the
  `Levenshtein` (rapidfuzz) library: the number of character positions at
  which the two strings differ, with the shorter string padded to the
  longer one's length, every padded position counting as a difference;
* the BK-tree of the `pybktree` library (`BKTree.add`, `BKTree.find`,
  iteration), which `buildBKTree` / `updateBKTree` / `findInBKTree` wrap;
* the sqlite-backed metadata store of `createTable` / `buildDatabase` /
  `updateDatabase`, modelled as a list of rows, with the transaction
  semantics of the source (a single `con.commit()` at the end of
  `updateDatabase`, one commit per directory in `buildDatabase` via
  `insertData2Table`, and a rollback of all uncommitted changes when an
  exception escapes before the commit);
* the two search paths of `searchByImages` and the CSV report written by
  `saveMatches2csv`.

Per-file hash computation (`hashFunc(getPILImage(fpath))`) is opaque I/O;
it is modelled by recording, for every enumerated file, the outcome of
that call: `some h` for a successful hash, `none` when `Image.open` or
the hash function raises (the program has no handler for that exception).
-/

namespace RevImgSearch

/-! ## Definitions -/

/-- The function `Levenshtein.hamming(s1, s2, pad=True)` compares the two strings
character by character; when the lengths differ the shorter string is
padded, and each padded position counts as one difference. -/
def hammingL : List Char → List Char → Nat
  | a :: as, b :: bs => (if a = b then 0 else 1) + hammingL as bs
  | as, [] => as.length
  | [], bs => bs.length

/-- The `Img` namedtuple: `Img = namedtuple("Img", ["hash_hex",
"directory", "filename"])`.  `findInBKTree` builds query items with
`Img(hash_hex, None, None)`, so the location fields are optional. -/
structure Img where
  hash_hex : String
  directory : Option String
  filename : Option String
deriving DecidableEq, Repr

/-- The distance `_hamming(str1, str2) = Levenshtein.hamming(str1.hash_hex,
str2.hash_hex, pad=True)`. -/
def _hamming (x y : Img) : Nat :=
  hammingL x.hash_hex.data y.hash_hex.data

mutual
/-- A node of a `pybktree.BKTree`: the pair `(item, children)` where
`children` is a dict from integer distance to subtree, modelled as an
association list in insertion order. -/
inductive BKNode where
  | mk : Img → BKChildren → BKNode
deriving Repr
/-- The children dict of a BK-tree node. -/
inductive BKChildren where
  | nil : BKChildren
  | cons : Nat → BKNode → BKChildren → BKChildren
deriving Repr
end

mutual
/-- Insertion, `BKTree.add`: at each node compute the distance `d` of the new item
to the node's item; descend into the child at edge `d` when it exists,
otherwise attach the item there as a new leaf. -/
def addNode (item : Img) : BKNode → BKNode
  | .mk p cs => .mk p (addChildren item (_hamming item p) cs)
/-- The `children.get(distance)` step of `BKTree.add`, over the
association list of children. -/
def addChildren (item : Img) (d : Nat) : BKChildren → BKChildren
  | .nil => .cons d (.mk item .nil) .nil
  | .cons c t rest =>
    if c = d then .cons c (addNode item t) rest
    else .cons c t (addChildren item d rest)
end

mutual
/-- Iteration over all items stored in the (sub)tree. -/
def nodeList : BKNode → List Img
  | .mk p cs => p :: childrenList cs
/-- Iteration over all items stored under a children list. -/
def childrenList : BKChildren → List Img
  | .nil => []
  | .cons _ t rest => nodeList t ++ childrenList rest
end

mutual
/-- Bounded-radius query, `BKTree.find`: emit the node's item when its distance to the target
is at most `n`, and visit exactly the children whose edge label `c`
satisfies `d - n ≤ c ≤ d + n` (computed over the integers, as in the
Python source).  The source drains a breadth-first queue and finally
sorts by distance; the multiset of emitted pairs is the same, so the
traversal is modelled depth-first. -/
def findNode (target : Img) (n : Nat) : BKNode → List (Nat × Img)
  | .mk p cs =>
    (if _hamming p target ≤ n then [(_hamming p target, p)] else []) ++
      findChildren target n (_hamming p target) cs
/-- The pruning step of `BKTree.find` over one children list, `d` being
the distance of the parent node's item to the target. -/
def findChildren (target : Img) (n d : Nat) : BKChildren → List (Nat × Img)
  | .nil => []
  | .cons c t rest =>
    (if (d : Int) - (n : Int) ≤ (c : Int) ∧ (c : Int) ≤ (d : Int) + (n : Int)
      then findNode target n t else []) ++
      findChildren target n d rest
end

mutual
/-- The structural invariant a BK-tree built by insertions satisfies:
every item stored under a child with edge label `c` is at distance
exactly `c` from the parent's item. -/
def nodeInvB : BKNode → Bool
  | .mk p cs => childrenInvB p cs
/-- The invariant of one children list with respect to its parent item. -/
def childrenInvB (p : Img) : BKChildren → Bool
  | .nil => true
  | .cons c t rest =>
    (nodeList t).all (fun q => _hamming q p == c) && nodeInvB t &&
      childrenInvB p rest
end

/-- A `pybktree.BKTree`: its `tree` field is `None` when empty. -/
def treeAdd (t : Option BKNode) (item : Img) : Option BKNode :=
  match t with
  | none => some (.mk item .nil)
  | some t => some (addNode item t)

/-- Iteration over a possibly empty tree (`set(bk_tree)` uses this). -/
def treeList : Option BKNode → List Img
  | none => []
  | some t => nodeList t

/-- Run `BKTree.find` on a possibly empty tree. -/
def treeFind (t : Option BKNode) (target : Img) (n : Nat) : List (Nat × Img) :=
  match t with
  | none => []
  | some t => findNode target n t

/-- The structural invariant on a possibly empty tree. -/
def treeInvB : Option BKNode → Bool
  | none => true
  | some t => nodeInvB t

/-- Construction, `pybktree.BKTree(distance_func, imgs)`: fold `add` over the items. -/
def mkBKTree (imgs : List Img) : Option BKNode :=
  imgs.foldl treeAdd none

/-- Rebuild, `buildBKTree`: select `(hash_hex, directory, filename)` from the
image table and build a fresh tree from those entries. -/
def buildBKTree (imgs : List Img) : Option BKNode := mkBKTree imgs

/-- Synchronisation, `updateBKTree`: when no `bk_tree.pkl` exists (first argument `none`),
build the tree and persist it.  Otherwise load the persisted tree,
compare its entry set with the entry set read from `img.db`, and rebuild
exactly when the two sets differ. -/
def updateBKTree (persisted : Option (Option BKNode)) (imgs : List Img) :
    Option BKNode :=
  match persisted with
  | none => buildBKTree imgs
  | some t =>
    if (treeList t).toFinset = imgs.toFinset then t else buildBKTree imgs

/-- The wrapper `findInBKTree(bk_tree, hash_hex, directory, filename, dist_thres) =
bk_tree.find(Img(hash_hex, directory, filename), dist_thres)`. -/
def findInBKTree (t : Option BKNode) (hash_hex : String)
    (directory filename : Option String) (dist_thres : Nat) : List (Nat × Img) :=
  treeFind t ⟨hash_hex, directory, filename⟩ dist_thres

/-- A row of the `image` table: columns `(directory, filename, hash_hex,
filesize, present)`, primary key `(directory, filename)`. -/
structure Row where
  directory : String
  filename : String
  hash_hex : String
  filesize : ℚ
  present : Bool
deriving DecidableEq, Repr

/-- The constant `XBYTES = 1048576`: file sizes are stored in MiB. -/
def XBYTES : ℚ := 1048576

/-- One enumerated file of `params["img_dirs"]`, as consumed by the sync
loops: its composite key `os.path.split(fpath)`, its size in bytes, and
the recorded outcome of `hashFunc(getPILImage(fpath))` (`none` when the
file cannot be read or decoded and that call raises). -/
structure FileInfo where
  directory : String
  filename : String
  size : ℚ
  hashResult : Option String
deriving DecidableEq, Repr

/-- The composite key of a row. -/
def Row.key (r : Row) : String × String := (r.directory, r.filename)

/-- The composite key `os.path.split(fpath)` of an enumerated file. -/
def FileInfo.key (f : FileInfo) : String × String := (f.directory, f.filename)

/-- The row inserted for a freshly discovered file whose hash is `h`. -/
def mkRow (f : FileInfo) (h : String) : Row :=
  ⟨f.directory, f.filename, h, f.size / XBYTES, true⟩

/-- The hash of a file whose hash computation succeeds (the default is
never consulted on the paths where this function is used). -/
def hashOr (f : FileInfo) : String := f.hashResult.getD ""

/-- The statement `UPDATE image SET present=FALSE;`. -/
def markAllAbsent (db : List Row) : List Row :=
  db.map fun r => { r with present := false }

/-- The probe `SELECT directory FROM image WHERE directory=? AND filename=?;`
followed by `fetchone()`: does any row carry this composite key? -/
def hasKey (db : List Row) (k : String × String) : Bool :=
  db.any fun r => decide (r.key = k)

/-- The statement `UPDATE image SET present=TRUE WHERE directory=? AND filename=?;`. -/
def setPresent (db : List Row) (k : String × String) : List Row :=
  db.map fun r => if r.key = k then { r with present := true } else r

/-- One iteration of the per-file loop of `updateDatabase`: mark the row
present when the key is already in the table, otherwise hash the file and
insert a new present row.  `none` models the uncaught exception from
`hashFunc(getPILImage(fpath))` aborting the run. -/
def processFileE (db : List Row) (f : FileInfo) : Option (List Row) :=
  if hasKey db f.key then some (setPresent db f.key)
  else
    match f.hashResult with
    | none => none
    | some h => some (db ++ [mkRow f h])

/-- The file loop of `updateDatabase`; it stops at the first exception. -/
def updateRowsE : List Row → List FileInfo → Option (List Row)
  | db, [] => some db
  | db, f :: fs =>
    match processFileE db f with
    | none => none
    | some db2 => updateRowsE db2 fs

/-- The success path of `processFileE`. -/
def processFile (db : List Row) (f : FileInfo) : List Row :=
  if hasKey db f.key then setPresent db f.key else db ++ [mkRow f (hashOr f)]

/-- The success path of the file loop of `updateDatabase`. -/
def updateRows (db : List Row) (fs : List FileInfo) : List Row :=
  fs.foldl processFile db

/-- The outcome of `updateDatabase` on an existing store: mark every row
absent, run the per-file loop, delete the still-absent rows when
`del_absent`, then commit everything at once.  `none` models the run
aborting with an uncaught exception before the commit. -/
def updateDatabaseRun (db : List Row) (files : List FileInfo)
    (del_absent : Bool) : Option (List Row) :=
  (updateRowsE (markAllAbsent db) files).map fun db2 =>
    if del_absent then db2.filter (fun r => r.present) else db2

/-- The on-disk store after calling `updateDatabase` on an existing
store: the single `con.commit()` sits at the end of the function, so on
an exception nothing of the pass is committed and the store is
unchanged. -/
def updateDatabase (db : List Row) (files : List FileInfo)
    (del_absent : Bool) : List Row :=
  match updateDatabaseRun db files del_absent with
  | none => db
  | some db2 => db2

/-- The store `updateDatabase` commits when no exception interrupts the
pass (the success path of `updateDatabaseRun`). -/
def updateDatabaseOk (db : List Row) (files : List FileInfo)
    (del_absent : Bool) : List Row :=
  if del_absent then
    (updateRows (markAllAbsent db) files).filter fun r => r.present
  else updateRows (markAllAbsent db) files

/-- The per-directory hashing loop of `buildDatabase`: all hashes of one
directory are computed before any of its rows is inserted, so an
exception leaves the whole directory uninserted. -/
def dirRowsE : List FileInfo → Option (List Row)
  | [] => some []
  | f :: fs =>
    match f.hashResult with
    | none => none
    | some h => (dirRowsE fs).map (mkRow f h :: ·)

/-- Does every hash computation of this directory succeed? -/
def dirOk (d : List FileInfo) : Bool := d.all fun f => f.hashResult.isSome

/-- The rows of one directory when every hash succeeds. -/
def dirRows (d : List FileInfo) : List Row := d.map fun f => mkRow f (hashOr f)

/-- The batch insert `insertData2Table`: `executemany` runs the `INSERT`
row by row inside one transaction; a duplicate `(directory, filename)`
primary key — against the committed table or an earlier row of the same
batch — raises `IntegrityError`, the commit is never reached so the whole
batch rolls back (`none`), and the re-raised exception propagates to the
caller.  On success the batch is committed (`some`). -/
def insertData2TableE : List Row → List Row → Option (List Row)
  | acc, [] => some acc
  | acc, r :: rows =>
    if hasKey acc r.key then none
    else insertData2TableE (acc ++ [r]) rows

/-- The committed contents of the rebuilt store: each directory is hashed
in full, then inserted and committed by `insertData2Table`; a hash
failure (nothing of the directory inserted) or a duplicate-key
`IntegrityError` (the directory's batch rolled back) aborts the build,
leaving the directories committed so far. -/
def buildGo : List Row → List (List FileInfo) → List Row
  | acc, [] => acc
  | acc, d :: ds =>
    match dirRowsE d with
    | none => acc
    | some rows =>
      match insertData2TableE acc rows with
      | none => acc
      | some acc2 => buildGo acc2 ds

/-- The on-disk store after `buildDatabase`: `createTable` first deletes
any existing `img.db` (the old store is discarded unconditionally) and
creates an empty table; then the directories are processed in order. -/
def buildDatabase (dirs : List (List FileInfo)) : List Row :=
  buildGo [] dirs

/-- All rows of a fully successful rebuild. -/
def allRows (dirs : List (List FileInfo)) : List Row :=
  (dirs.map dirRows).flatten

/-- The sync entry point `updateDatabase` as called by the program: when `img.db` does not
exist (`none`), fall back to a full `buildDatabase`; otherwise run the
incremental update.  The update path has no per-directory commit, so its
nested loops over `img_dirs` are the flat loop over the concatenated
enumeration. -/
def updateDatabaseOpt (st : Option (List Row)) (dirs : List (List FileInfo))
    (del_absent : Bool) : List Row :=
  match st with
  | none => buildDatabase dirs
  | some db => updateDatabase db dirs.flatten del_absent

/-- One row of `SELECT hash_hex, directory, filename FROM image`. -/
def rowImg (r : Row) : Img := ⟨r.hash_hex, some r.directory, some r.filename⟩

/-- Does some live file carry this row's key? -/
def matchedBy (fs : List FileInfo) (r : Row) : Bool :=
  fs.any fun f => decide (f.key = r.key)

/-- A pre-existing row after the per-file loop has run over it: marked
present exactly when some live file carries its key, untouched
otherwise. -/
def reviveBy (fs : List FileInfo) (r : Row) : Row :=
  if matchedBy fs r then { r with present := true } else r

/-- The rows inserted by the per-file loop, given the set `ks` of keys
already in the table: one row per live file whose key is fresh at its
position in the enumeration. -/
def insertedRows (ks : List (String × String)) : List FileInfo → List Row
  | [] => []
  | f :: fs =>
    if f.key ∈ ks then insertedRows ks fs
    else mkRow f (hashOr f) :: insertedRows (f.key :: ks) fs

/-- The composite keys of all rows of a store. -/
def dbKeys (db : List Row) : List (String × String) := db.map Row.key

/-- The key set of the records marked present. -/
def presentKeys (db : List Row) : Finset (String × String) :=
  ((db.filter fun r => r.present).map Row.key).toFinset

/-- The key set derivable from a live-file enumeration. -/
def fileKeys (fs : List FileInfo) : Finset (String × String) :=
  (fs.map FileInfo.key).toFinset

/-- The exact-match branch of `searchByImages` (`distance_threshold == 0`
with `always_tree=False`), restricted to one query fingerprint: the
locations of the rows whose `hash_hex` equals it. -/
def searchExactFound (db : List Img) (h : String) :
    List (Option String × Option String) :=
  (db.filter fun r => decide (r.hash_hex = h)).map fun r => (r.directory, r.filename)

/-- The tree branch of `searchByImages` for one query fingerprint. -/
def searchTreeFound (t : Option BKNode) (h : String) (thres : Nat) :
    List (Option String × Option String) :=
  (findInBKTree t h none none thres).map fun p => (p.2.directory, p.2.filename)

/-- The join `os.path.join` on a `(directory, filename)` composite key (POSIX
separator; the directories produced by `os.path.split` do not end in a
separator). -/
def joinPath (d f : String) : String := d ++ "/" ++ f

/-- The header row written by `saveMatches2csv`. -/
def headerRow : List (Option String) :=
  [some "input_path", some "match_path", some "match_directory",
    some "match_filename"]

/-- The rows `saveMatches2csv` writes for one query fingerprint: the row
of the first match carries the joined input path, every later row leaves
that cell empty (`None`). -/
def rowsForQuery (path : String) (found : List (String × String)) :
    List (List (Option String)) :=
  found.enum.map fun it =>
    if it.1 = 0 then
      [some path, some (joinPath it.2.1 it.2.2), some it.2.1, some it.2.2]
    else
      [none, some (joinPath it.2.1 it.2.2), some it.2.1, some it.2.2]

/-- The lookup `hex2found[h]` on a `defaultdict(list)`: the recorded matches of a
query fingerprint, `[]` when none were recorded. -/
def lookupFound (h2f : List (String × List (String × String))) (h : String) :
    List (String × String) :=
  match h2f.find? fun q => decide (q.1 = h) with
  | some q => q.2
  | none => []

/-- The report `saveMatches2csv`: the header row followed, for every query
fingerprint of `hex2path` in order, by one row per match recorded in
`hex2found`; the input-path cell of a query joins all of its source
locations with `" | "`. -/
def saveMatches2csv (h2p : List (String × List (String × String)))
    (h2f : List (String × List (String × String))) : List (List (Option String)) :=
  headerRow :: h2p.flatMap fun q =>
    rowsForQuery (String.intercalate " | " (q.2.map fun ck => joinPath ck.1 ck.2))
      (lookupFound h2f q.1)

/-! ## Theorems -/

@[simp]
theorem hammingL_nil_left (b : List Char) : hammingL [] b = b.length := by
  cases b <;> rfl

@[simp]
theorem hammingL_nil_right (a : List Char) : hammingL a [] = a.length := by
  cases a <;> rfl

@[simp]
theorem hammingL_cons_cons (a b : Char) (as bs : List Char) :
    hammingL (a :: as) (b :: bs) = (if a = b then 0 else 1) + hammingL as bs := rfl

theorem hammingL_self (a : List Char) : hammingL a a = 0 := by
  induction a with
  | nil => rfl
  | cons x xs ih => simp [ih]

theorem hammingL_comm (a : List Char) : ∀ b, hammingL a b = hammingL b a := by
  induction a with
  | nil => intro b; simp
  | cons x xs ih =>
    intro b
    cases b with
    | nil => simp
    | cons y ys =>
      simp only [hammingL_cons_cons, ih]
      by_cases h : x = y
      · simp [h]
      · rw [if_neg h, if_neg (fun hyx => h hyx.symm)]

theorem length_le_hammingL (b : List Char) :
    ∀ c, c.length ≤ b.length + hammingL b c := by
  induction b with
  | nil => intro c; simp
  | cons y ys ih =>
    intro c
    cases c with
    | nil => simp
    | cons z zs =>
      have := ih zs
      simp only [hammingL_cons_cons, List.length_cons]
      by_cases h : y = z <;> simp [h] <;> omega

theorem hammingL_le_length_add (a : List Char) :
    ∀ c, hammingL a c ≤ a.length + c.length := by
  induction a with
  | nil => intro c; simp
  | cons x xs ih =>
    intro c
    cases c with
    | nil => simp
    | cons z zs =>
      have := ih zs
      simp only [hammingL_cons_cons, List.length_cons]
      by_cases h : x = z <;> simp [h] <;> omega

theorem hammingL_triangle (a : List Char) :
    ∀ b c, hammingL a c ≤ hammingL a b + hammingL b c := by
  induction a with
  | nil =>
    intro b c
    simpa using length_le_hammingL b c
  | cons x xs ih =>
    intro b c
    cases b with
    | nil =>
      calc hammingL (x :: xs) c ≤ (x :: xs).length + c.length :=
            hammingL_le_length_add _ _
        _ = hammingL (x :: xs) [] + hammingL [] c := by simp
    | cons y ys =>
      cases c with
      | nil =>
        have h1 : (x :: xs).length ≤ (y :: ys).length + hammingL (y :: ys) (x :: xs) :=
          length_le_hammingL _ _
        have h2 : hammingL (y :: ys) (x :: xs) = hammingL (x :: xs) (y :: ys) :=
          hammingL_comm _ _
        simp only [hammingL_nil_right]
        omega
      | cons z zs =>
        have hih := ih ys zs
        simp only [hammingL_cons_cons]
        by_cases hxy : x = y <;> by_cases hyz : y = z
        · have hxz : x = z := hxy.trans hyz
          simp [hxy, hyz, hxz]; omega
        · simp only [hxy, if_pos rfl, if_neg hyz]
          by_cases hxz : x = z <;> simp [hxz] <;> omega
        · simp only [if_neg hxy, hyz, if_pos rfl]
          by_cases hxz : x = z <;> simp [hxz] <;> omega
        · simp only [if_neg hxy, if_neg hyz]
          by_cases hxz : x = z <;> simp [hxz] <;> omega

theorem hammingL_eq_zero_iff (a : List Char) :
    ∀ b, hammingL a b = 0 ↔ a = b := by
  induction a with
  | nil =>
    intro b
    cases b <;> simp
  | cons x xs ih =>
    intro b
    cases b with
    | nil => simp
    | cons y ys =>
      by_cases h : x = y <;> simp [h, ih]

theorem hammingL_eq_countP_zip (a : List Char) :
    ∀ b, hammingL a b =
      ((a.zip b).countP fun p => !(p.1 == p.2)) +
        (a.length - b.length) + (b.length - a.length) := by
  induction a with
  | nil => intro b; simp
  | cons x xs ih =>
    intro b
    cases b with
    | nil => simp
    | cons y ys =>
      have := ih ys
      simp only [hammingL_cons_cons, List.zip_cons_cons, List.countP_cons,
        List.length_cons]
      by_cases h : x = y <;> simp [h] <;> omega

theorem _hamming_comm (x y : Img) : _hamming x y = _hamming y x :=
  hammingL_comm _ _

theorem _hamming_self (x : Img) : _hamming x x = 0 :=
  hammingL_self _

theorem _hamming_triangle (x y z : Img) :
    _hamming x z ≤ _hamming x y + _hamming y z :=
  hammingL_triangle _ _ _

theorem _hamming_eq_zero_iff (x y : Img) :
    _hamming x y = 0 ↔ x.hash_hex = y.hash_hex := by
  unfold _hamming
  rw [hammingL_eq_zero_iff]
  exact ⟨fun h => String.ext h, fun h => by rw [h]⟩

/-- Claim C4, counterexample: the distance function is not bit-level.
`_hamming` compares the hex strings character by character, so
`distance("00", "ff")` is `2` (both characters differ), not the `8` the
claim asserts for an 8-bit fingerprint. -/
theorem hamming_00_ff_not_8 :
    ¬ (_hamming ⟨"00", none, none⟩ ⟨"ff", none, none⟩ = 8) := by
  decide

/-- Claim C4 (amended): the distance function computes the
character-level Hamming distance over the hex strings themselves (not
over their decoded bits), with the shorter string padded to the longer
one's length and every padded position counting as a difference; in
particular `distance("00", "ff") = 2`. -/
theorem hamming_char_level :
    (∀ a b : Img, _hamming a b =
      ((a.hash_hex.data.zip b.hash_hex.data).countP fun p => !(p.1 == p.2)) +
        (a.hash_hex.data.length - b.hash_hex.data.length) +
        (b.hash_hex.data.length - a.hash_hex.data.length)) ∧
    _hamming ⟨"00", none, none⟩ ⟨"ff", none, none⟩ = 2 := by
  refine ⟨fun a b => ?_, by decide⟩
  exact hammingL_eq_countP_zip a.hash_hex.data b.hash_hex.data

/-- Claim C5: the distance function is a metric on fingerprints: it is
symmetric, zero on identical fingerprints, and satisfies the triangle
inequality, including for hex strings of different lengths (the shorter
operand is padded). -/
theorem hamming_metric : ∀ a b c : Img,
    _hamming a b = _hamming b a ∧ _hamming a a = 0 ∧
      _hamming a c ≤ _hamming a b + _hamming b c :=
  fun a b c => ⟨_hamming_comm a b, _hamming_self a, _hamming_triangle a b c⟩

mutual
theorem perm_addNode (item : Img) :
    ∀ t : BKNode, (nodeList (addNode item t)).Perm (item :: nodeList t)
  | .mk p cs => by
    simp only [addNode, nodeList]
    exact ((perm_addChildren item (_hamming item p) cs).cons p).trans
      (List.Perm.swap item p _)
theorem perm_addChildren (item : Img) (d : Nat) :
    ∀ cs : BKChildren,
      (childrenList (addChildren item d cs)).Perm (item :: childrenList cs)
  | .nil => by
    simp [addChildren, childrenList, nodeList]
  | .cons c t rest => by
    simp only [addChildren]
    by_cases h : c = d
    · simp only [if_pos h, childrenList]
      exact (perm_addNode item t).append_right (childrenList rest)
    · simp only [if_neg h, childrenList]
      exact (List.Perm.append_left (nodeList t)
        (perm_addChildren item d rest)).trans List.perm_middle
end

theorem perm_treeAdd (t : Option BKNode) (item : Img) :
    (treeList (treeAdd t item)).Perm (item :: treeList t) := by
  cases t with
  | none => simp [treeAdd, treeList, nodeList, childrenList]
  | some t => exact perm_addNode item t

theorem perm_foldl_treeAdd (imgs : List Img) :
    ∀ t, (treeList (imgs.foldl treeAdd t)).Perm (imgs ++ treeList t) := by
  induction imgs with
  | nil => intro t; simp
  | cons i is ih =>
    intro t
    have h1 : treeList ((i :: is).foldl treeAdd t) =
        treeList (is.foldl treeAdd (treeAdd t i)) := rfl
    rw [h1]
    exact ((ih _).trans (List.Perm.append_left is (perm_treeAdd t i))).trans
      List.perm_middle

theorem perm_mkBKTree (imgs : List Img) : (treeList (mkBKTree imgs)).Perm imgs := by
  simpa [mkBKTree, treeList] using perm_foldl_treeAdd imgs none

mutual
theorem inv_addNode (item : Img) :
    ∀ t : BKNode, nodeInvB t = true → nodeInvB (addNode item t) = true
  | .mk p cs => fun h => by
    simp only [addNode, nodeInvB] at h ⊢
    exact inv_addChildren item p (_hamming item p) rfl cs h
theorem inv_addChildren (item p : Img) (d : Nat) (hd : d = _hamming item p) :
    ∀ cs : BKChildren, childrenInvB p cs = true →
      childrenInvB p (addChildren item d cs) = true
  | .nil => fun _ => by
    simp [addChildren, childrenInvB, nodeInvB, nodeList, childrenList, hd]
  | .cons c t rest => fun h => by
    simp only [childrenInvB, Bool.and_eq_true, List.all_eq_true] at h
    obtain ⟨⟨hall, hinv⟩, hrest⟩ := h
    simp only [addChildren]
    by_cases hc : c = d
    · subst hc
      simp only [if_pos rfl, childrenInvB, Bool.and_eq_true, List.all_eq_true]
      refine ⟨⟨?_, inv_addNode item t hinv⟩, hrest⟩
      intro q hq
      rcases List.mem_cons.mp ((perm_addNode item t).mem_iff.mp hq) with rfl | hq'
      · simp [hd]
      · exact hall q hq'
    · simp only [if_neg hc, childrenInvB, Bool.and_eq_true, List.all_eq_true]
      exact ⟨⟨hall, hinv⟩, inv_addChildren item p d hd rest hrest⟩
end

theorem inv_treeAdd (t : Option BKNode) (item : Img) :
    treeInvB t = true → treeInvB (treeAdd t item) = true := by
  cases t with
  | none => intro _; simp [treeAdd, treeInvB, nodeInvB, childrenInvB]
  | some t => exact inv_addNode item t

theorem inv_foldl_treeAdd (imgs : List Img) :
    ∀ t, treeInvB t = true → treeInvB (imgs.foldl treeAdd t) = true := by
  induction imgs with
  | nil => intro t h; exact h
  | cons i is ih => intro t h; exact ih _ (inv_treeAdd t i h)

theorem inv_mkBKTree (imgs : List Img) : treeInvB (mkBKTree imgs) = true :=
  inv_foldl_treeAdd imgs none rfl

mutual
theorem findNode_eq_filter (target : Img) (n : Nat) :
    ∀ t : BKNode, nodeInvB t = true →
      (findNode target n t).map Prod.snd =
        (nodeList t).filter fun q => decide (_hamming q target ≤ n)
  | .mk p cs => fun h => by
    simp only [nodeInvB] at h
    have hcs := findChildren_eq_filter target n p (_hamming p target) rfl cs h
    simp only [findNode, nodeList, List.map_append, hcs, List.filter_cons]
    by_cases hp : _hamming p target ≤ n
    · simp [hp]
    · simp [hp]
theorem findChildren_eq_filter (target : Img) (n : Nat) (p : Img) (d : Nat)
    (hd : d = _hamming p target) :
    ∀ cs : BKChildren, childrenInvB p cs = true →
      (findChildren target n d cs).map Prod.snd =
        (childrenList cs).filter fun q => decide (_hamming q target ≤ n)
  | .nil => fun _ => by simp [findChildren, childrenList]
  | .cons c t rest => fun h => by
    simp only [childrenInvB, Bool.and_eq_true, List.all_eq_true] at h
    obtain ⟨⟨hall, hinv⟩, hrest⟩ := h
    simp only [findChildren, childrenList, List.map_append, List.filter_append]
    rw [findChildren_eq_filter target n p d hd rest hrest]
    congr 1
    by_cases htest :
        (d : Int) - (n : Int) ≤ (c : Int) ∧ (c : Int) ≤ (d : Int) + (n : Int)
    · rw [if_pos htest, findNode_eq_filter target n t hinv]
    · rw [if_neg htest]
      symm
      simp only [List.map_nil, List.filter_eq_nil_iff, decide_eq_true_eq]
      intro q hq
      have hc : _hamming q p = c := by
        have := hall q hq
        simpa using this
      have t1 : _hamming q p ≤ _hamming q target + _hamming target p :=
        _hamming_triangle q target p
      have t2 : _hamming p target ≤ _hamming p q + _hamming q target :=
        _hamming_triangle p q target
      have e1 : _hamming target p = _hamming p target := _hamming_comm target p
      have e2 : _hamming p q = _hamming q p := _hamming_comm p q
      rcases not_and_or.mp htest with h1 | h1 <;> omega
end

theorem treeFind_eq_filter (t : Option BKNode) (target : Img) (n : Nat)
    (h : treeInvB t = true) :
    (treeFind t target n).map Prod.snd =
      (treeList t).filter fun q => decide (_hamming q target ≤ n) := by
  cases t with
  | none => simp [treeFind, treeList]
  | some t => exact findNode_eq_filter target n t h

/-- Claim C2: for a tree built from the entries `E` and every query
target and radius, `findInBKTree` returns exactly the entries of `E`
within distance `radius` of the target, each exactly once (the returned
list of entries is a permutation of the matching sublist of `E`), so the
triangle-inequality pruning never discards a matching entry. -/
theorem findInBKTree_correct (E : List Img) (hash_hex : String)
    (directory filename : Option String) (n : Nat) :
    ((findInBKTree (mkBKTree E) hash_hex directory filename n).map Prod.snd).Perm
      (E.filter fun e =>
        decide (_hamming ⟨hash_hex, directory, filename⟩ e ≤ n)) := by
  rw [findInBKTree,
    treeFind_eq_filter (mkBKTree E) ⟨hash_hex, directory, filename⟩ n
      (inv_mkBKTree E)]
  have hperm :=
    (perm_mkBKTree E).filter
      (fun q => decide (_hamming q ⟨hash_hex, directory, filename⟩ ≤ n))
  refine hperm.trans (List.Perm.of_eq ?_)
  exact List.filter_congr fun x _ => by
    simp [_hamming_comm x ⟨hash_hex, directory, filename⟩]

/-- Claim C1: after `updateBKTree` completes, the entry set of the
BK-tree index equals the set of `(fingerprint, directory, filename)`
triples of all rows of the metadata store, from every initial state:
index file absent (`none`), index matching the store, or index
mismatching the store. -/
theorem updateBKTree_consistent (persisted : Option (Option BKNode))
    (db : List Row) :
    (treeList (updateBKTree persisted (db.map rowImg))).toFinset =
      (db.map rowImg).toFinset := by
  have hb : ∀ imgs : List Img,
      (treeList (buildBKTree imgs)).toFinset = imgs.toFinset :=
    fun imgs => List.toFinset_eq_of_perm _ _ (perm_mkBKTree imgs)
  cases persisted with
  | none => exact hb _
  | some t =>
    by_cases h : (treeList t).toFinset = (db.map rowImg).toFinset
    · rw [updateBKTree, if_pos h]
      exact h
    · rw [updateBKTree, if_neg h]
      exact hb (db.map rowImg)

/-- Claim C10: when the index (a tree with the structural invariant every
insertion-built tree satisfies) holds exactly the entry set of the
metadata store, the exact-match search path and the tree search path
agree at threshold zero: every query fingerprint yields the same set of
matched locations. -/
theorem search_modes_agree_at_zero (t : Option BKNode) (db : List Img)
    (h : String) (htree : treeInvB t = true)
    (hsync : (treeList t).toFinset = db.toFinset) :
    (searchExactFound db h).toFinset = (searchTreeFound t h 0).toFinset := by
  have hfind := treeFind_eq_filter t ⟨h, none, none⟩ 0 htree
  have hst : searchTreeFound t h 0 =
      ((treeFind t ⟨h, none, none⟩ 0).map Prod.snd).map
        fun e => (e.directory, e.filename) := by
    simp [searchTreeFound, findInBKTree, List.map_map]
  have hpred : ∀ l : List Img,
      (l.filter fun q => decide (_hamming q ⟨h, none, none⟩ ≤ 0)) =
        l.filter fun q => decide (q.hash_hex = h) := by
    intro l
    refine List.filter_congr fun x _ => ?_
    have : _hamming x ⟨h, none, none⟩ ≤ 0 ↔ x.hash_hex = h := by
      rw [Nat.le_zero, _hamming_eq_zero_iff]
    simp [this]
  rw [hst, hfind, hpred]
  have hexact : searchExactFound db h =
      (db.filter fun q => decide (q.hash_hex = h)).map
        fun e => (e.directory, e.filename) := rfl
  rw [hexact]
  have hmem : ∀ q : Img, q ∈ treeList t ↔ q ∈ db := fun q => by
    rw [← List.mem_toFinset, hsync, List.mem_toFinset]
  ext x
  simp only [List.mem_toFinset, List.mem_map, List.mem_filter,
    decide_eq_true_eq, hmem]

/-- Claim C10, witness: a one-entry index in sync with a one-row store,
queried at threshold zero. -/
theorem search_modes_agree_at_zero_witness :
    (searchExactFound [⟨"aa", some "d", some "f"⟩] "aa").toFinset =
      (searchTreeFound
        (some (BKNode.mk ⟨"aa", some "d", some "f"⟩ BKChildren.nil)) "aa"
        0).toFinset :=
  search_modes_agree_at_zero
    (some (BKNode.mk ⟨"aa", some "d", some "f"⟩ BKChildren.nil))
    [⟨"aa", some "d", some "f"⟩] "aa" (by decide) (by decide)

theorem key_set_present (r : Row) (b : Bool) :
    ({ r with present := b } : Row).key = r.key := rfl

theorem dbKeys_setPresent (db : List Row) (k : String × String) :
    dbKeys (setPresent db k) = dbKeys db := by
  unfold dbKeys setPresent
  rw [List.map_map]
  refine List.map_congr_left fun r _ => ?_
  by_cases h : r.key = k <;> simp [h, key_set_present]

theorem dbKeys_markAllAbsent (db : List Row) :
    dbKeys (markAllAbsent db) = dbKeys db := by
  unfold dbKeys markAllAbsent
  rw [List.map_map]
  exact List.map_congr_left fun r _ => rfl

theorem hasKey_iff (db : List Row) (k : String × String) :
    hasKey db k = true ↔ k ∈ dbKeys db := by
  simp [hasKey, dbKeys, List.any_eq_true, List.mem_map]

theorem matchedBy_iff (fs : List FileInfo) (r : Row) :
    matchedBy fs r = true ↔ r.key ∈ fs.map FileInfo.key := by
  simp only [matchedBy, List.any_eq_true, decide_eq_true_eq, List.mem_map]

theorem matchedBy_set_present (fs : List FileInfo) (r : Row) (b : Bool) :
    matchedBy fs { r with present := b } = matchedBy fs r := rfl

theorem reviveBy_set_present_true (fs : List FileInfo) (r : Row)
    (h : r.present = true) : reviveBy fs r = r := by
  unfold reviveBy
  by_cases hm : matchedBy fs r
  · rw [if_pos hm]
    cases r
    simp_all
  · rw [if_neg hm]

theorem insertedRows_congr :
    ∀ (fs : List FileInfo) (ks1 ks2 : List (String × String)),
      (∀ x, x ∈ ks1 ↔ x ∈ ks2) → insertedRows ks1 fs = insertedRows ks2 fs
  | [], _, _, _ => rfl
  | f :: fs, ks1, ks2, h => by
    simp only [insertedRows]
    by_cases hf : f.key ∈ ks1
    · rw [if_pos hf, if_pos ((h _).mp hf)]
      exact insertedRows_congr fs ks1 ks2 h
    · rw [if_neg hf, if_neg (fun hx => hf ((h _).mpr hx))]
      congr 1
      exact insertedRows_congr fs _ _ (fun x => by simp [h x])

theorem insertedRows_eq_nil :
    ∀ (fs : List FileInfo) (ks : List (String × String)),
      (∀ f ∈ fs, f.key ∈ ks) → insertedRows ks fs = []
  | [], _, _ => rfl
  | f :: fs, ks, h => by
    rw [insertedRows, if_pos (h f (List.mem_cons_self f fs))]
    exact insertedRows_eq_nil fs ks fun g hg => h g (List.mem_cons_of_mem f hg)

theorem mem_insertedRows :
    ∀ (fs : List FileInfo) (ks : List (String × String)) (r : Row),
      r ∈ insertedRows ks fs →
        r.present = true ∧ r.key ∈ fs.map FileInfo.key
  | [], _, _, h => absurd h (List.not_mem_nil _)
  | f :: fs, ks, r, h => by
    rw [insertedRows] at h
    by_cases hf : f.key ∈ ks
    · rw [if_pos hf] at h
      obtain ⟨h1, h2⟩ := mem_insertedRows fs ks r h
      exact ⟨h1, by simp [h2]⟩
    · rw [if_neg hf] at h
      rcases List.mem_cons.mp h with rfl | h'
      · exact ⟨rfl, by simp [mkRow, Row.key, FileInfo.key]⟩
      · obtain ⟨h1, h2⟩ := mem_insertedRows fs _ r h'
        exact ⟨h1, by simp [h2]⟩

theorem key_mem_insertedRows :
    ∀ (fs : List FileInfo) (ks : List (String × String)) (k : String × String),
      (∃ r ∈ insertedRows ks fs, r.key = k) ↔
        (k ∈ fs.map FileInfo.key ∧ k ∉ ks)
  | [], ks, k => by simp [insertedRows]
  | f :: fs, ks, k => by
    rw [insertedRows]
    by_cases hf : f.key ∈ ks
    · rw [if_pos hf, key_mem_insertedRows fs ks k]
      by_cases hk : k = f.key
      · subst hk
        simp [hf]
      · simp [hk, fun h : f.key = k => hk h.symm]
    · rw [if_neg hf]
      by_cases hk : k = f.key
      · subst hk
        simp only [List.mem_cons, List.map_cons]
        constructor
        · intro _
          exact ⟨by simp, hf⟩
        · intro _
          exact ⟨mkRow f (hashOr f), Or.inl rfl, rfl⟩
      · simp only [List.mem_cons, List.map_cons]
        constructor
        · rintro ⟨r, hr | hr, hkey⟩
          · exfalso
            apply hk
            rw [← hkey, hr]
            rfl
          · have := (key_mem_insertedRows fs (f.key :: ks) k).mp ⟨r, hr, hkey⟩
            refine ⟨Or.inr this.1, fun hx => this.2 (List.mem_cons_of_mem _ hx)⟩
        · rintro ⟨hmem | hmem, hnot⟩
          · exact absurd hmem hk
          · have := (key_mem_insertedRows fs (f.key :: ks) k).mpr
              ⟨hmem, fun hx => by
                rcases List.mem_cons.mp hx with h1 | h1
                · exact hk h1
                · exact hnot h1⟩
            obtain ⟨r, hr, hkey⟩ := this
            exact ⟨r, Or.inr hr, hkey⟩

theorem reviveBy_key (fs : List FileInfo) (r : Row) :
    (reviveBy fs r).key = r.key := by
  unfold reviveBy
  by_cases h : matchedBy fs r <;> simp [h, key_set_present]

theorem reviveBy_cons_eq (f : FileInfo) (fs : List FileInfo) (r : Row) :
    reviveBy (f :: fs) r =
      if f.key = r.key then { r with present := true } else reviveBy fs r := by
  by_cases hk : f.key = r.key <;>
    simp [reviveBy, matchedBy, List.any_cons, hk]

/-- The per-file loop decomposed: every pre-existing row is revived when
some live file matches its key, and the fresh-at-their-position files are
appended as new present rows. -/
theorem updateRows_char :
    ∀ (fs : List FileInfo) (db : List Row),
      updateRows db fs = db.map (reviveBy fs) ++ insertedRows (dbKeys db) fs
  | [], db => by
    show db = db.map (reviveBy []) ++ insertedRows (dbKeys db) []
    rw [show insertedRows (dbKeys db) [] = [] from rfl, List.append_nil]
    exact ((List.map_congr_left fun r _ => show reviveBy [] r = r by
      simp [reviveBy, matchedBy]).trans (List.map_id db)).symm
  | f :: fs, db => by
    have hstep : updateRows db (f :: fs) = updateRows (processFile db f) fs := rfl
    rw [hstep, updateRows_char fs (processFile db f)]
    by_cases hf : hasKey db f.key
    · have hmem : f.key ∈ dbKeys db := (hasKey_iff db f.key).mp hf
      rw [processFile, if_pos hf, dbKeys_setPresent]
      rw [show insertedRows (dbKeys db) (f :: fs) = insertedRows (dbKeys db) fs from
        by rw [insertedRows, if_pos hmem]]
      congr 1
      unfold setPresent
      rw [List.map_map]
      refine List.map_congr_left fun r _ => ?_
      rw [reviveBy_cons_eq]
      by_cases hk : r.key = f.key
      · rw [Function.comp_apply, if_pos hk, if_pos hk.symm]
        exact reviveBy_set_present_true fs _ rfl
      · rw [Function.comp_apply, if_neg hk,
          if_neg (fun h : f.key = r.key => hk h.symm)]
    · have hmem : f.key ∉ dbKeys db := fun hm => by
        rw [← hasKey_iff] at hm
        exact absurd hm (by simpa using hf)
      rw [processFile, if_neg hf]
      rw [show dbKeys (db ++ [mkRow f (hashOr f)]) = dbKeys db ++ [f.key] from by
        simp [dbKeys, mkRow, Row.key, FileInfo.key]]
      rw [insertedRows_congr fs (dbKeys db ++ [f.key]) (f.key :: dbKeys db)
        (fun x => by simp [or_comm])]
      rw [List.map_append]
      rw [show insertedRows (dbKeys db) (f :: fs) =
          mkRow f (hashOr f) :: insertedRows (f.key :: dbKeys db) fs from by
        rw [insertedRows, if_neg hmem]]
      rw [show (([mkRow f (hashOr f)] : List Row).map (reviveBy fs)) =
          [mkRow f (hashOr f)] from by
        simp [reviveBy_set_present_true fs (mkRow f (hashOr f)) rfl]]
      rw [show db.map (reviveBy fs) = db.map (reviveBy (f :: fs)) from
        List.map_congr_left fun r hr => by
          rw [reviveBy_cons_eq,
            if_neg (fun hkey : f.key = r.key =>
              hmem (List.mem_map.mpr ⟨r, hr, hkey.symm⟩))]]
      simp

theorem present_reviveBy_absent (fs : List FileInfo) (r : Row)
    (h : r.present = false) :
    (reviveBy fs r).present = matchedBy fs (reviveBy fs r) := by
  by_cases hm : matchedBy fs r
  · rw [reviveBy, if_pos hm, matchedBy_set_present]
    rw [hm]
  · rw [reviveBy, if_neg hm]
    rw [h]
    exact (Bool.not_eq_true _).mp hm |>.symm

/-- After a sync pass, a row is present exactly when some live file
carries its key. -/
theorem present_updateRows (db : List Row) (fs : List FileInfo) (r : Row)
    (hr : r ∈ updateRows (markAllAbsent db) fs) :
    r.present = matchedBy fs r := by
  rw [updateRows_char, dbKeys_markAllAbsent] at hr
  rcases List.mem_append.mp hr with hr | hr
  · obtain ⟨r0, hr0, rfl⟩ := List.mem_map.mp hr
    obtain ⟨r1, _, rfl⟩ := List.mem_map.mp hr0
    exact present_reviveBy_absent fs _ rfl
  · obtain ⟨h1, h2⟩ := mem_insertedRows fs _ r hr
    rw [h1]
    exact ((matchedBy_iff fs r).mpr h2).symm

/-- The present-record key set after a sync pass is exactly the key set
of the live files. -/
theorem presentKeys_updateRows (db : List Row) (fs : List FileInfo) :
    presentKeys (updateRows (markAllAbsent db) fs) = fileKeys fs := by
  ext k
  simp only [presentKeys, fileKeys, List.mem_toFinset, List.mem_map,
    List.mem_filter]
  constructor
  · rintro ⟨r, ⟨hr, hp⟩, rfl⟩
    have hpm := present_updateRows db fs r hr
    rw [hp] at hpm
    have := matchedBy_iff fs r |>.mp hpm.symm
    exact List.mem_map.mp this
  · rintro ⟨f, hf, rfl⟩
    by_cases hdb : f.key ∈ dbKeys db
    · obtain ⟨r1, hr1, hkey⟩ := List.mem_map.mp hdb
      have hm : matchedBy fs ({ r1 with present := false } : Row) = true := by
        rw [matchedBy_iff, key_set_present, hkey]
        exact List.mem_map.mpr ⟨f, hf, rfl⟩
      refine ⟨reviveBy fs { r1 with present := false }, ⟨?_, ?_⟩, ?_⟩
      · rw [updateRows_char, dbKeys_markAllAbsent]
        exact List.mem_append_left _
          (List.mem_map.mpr ⟨{ r1 with present := false },
            List.mem_map.mpr ⟨r1, hr1, rfl⟩, rfl⟩)
      · rw [reviveBy, if_pos hm]
      · rw [reviveBy_key, key_set_present, hkey]
    · obtain ⟨r, hr, hkey⟩ := (key_mem_insertedRows fs (dbKeys db) f.key).mpr
        ⟨List.mem_map.mpr ⟨f, hf, rfl⟩, hdb⟩
      refine ⟨r, ⟨?_, (mem_insertedRows fs _ r hr).1⟩, hkey⟩
      rw [updateRows_char, dbKeys_markAllAbsent]
      exact List.mem_append_right _ hr

theorem updateRowsE_nil (db : List Row) : updateRowsE db [] = some db := rfl

theorem updateRowsE_cons (db : List Row) (f : FileInfo) (fs : List FileInfo) :
    updateRowsE db (f :: fs) =
      match processFileE db f with
      | none => none
      | some db2 => updateRowsE db2 fs := rfl

theorem processFileE_ok (db : List Row) (f : FileInfo) (db2 : List Row)
    (h : processFileE db f = some db2) : db2 = processFile db f := by
  unfold processFileE at h
  unfold processFile
  by_cases hf : hasKey db f.key
  · rw [if_pos hf] at h
    rw [if_pos hf]
    exact (Option.some_inj.mp h).symm
  · rw [if_neg hf] at h
    rw [if_neg hf]
    cases hres : f.hashResult with
    | none =>
      rw [hres] at h
      exact absurd h (by simp)
    | some hh =>
      rw [hres] at h
      rw [show hashOr f = hh from by simp [hashOr, hres]]
      exact (Option.some_inj.mp h).symm

theorem updateRowsE_ok :
    ∀ (fs : List FileInfo) (db out : List Row),
      updateRowsE db fs = some out → out = updateRows db fs
  | [], db, out, h => (Option.some_inj.mp h).symm
  | f :: fs, db, out, h => by
    rw [updateRowsE_cons] at h
    cases hp : processFileE db f with
    | none =>
      rw [hp] at h
      exact absurd h (by simp)
    | some db2 =>
      rw [hp] at h
      have hrec := updateRowsE_ok fs db2 out h
      rw [hrec, processFileE_ok db f db2 hp]
      rfl

theorem presentKeys_filter_present (l : List Row) :
    presentKeys (l.filter fun r => r.present) = presentKeys l := by
  ext k
  simp only [presentKeys, List.mem_toFinset, List.mem_map, List.mem_filter]
  constructor
  · rintro ⟨r, ⟨⟨hr, hp⟩, _⟩, rfl⟩
    exact ⟨r, ⟨hr, hp⟩, rfl⟩
  · rintro ⟨r, ⟨hr, hp⟩, rfl⟩
    exact ⟨r, ⟨⟨hr, hp⟩, hp⟩, rfl⟩

/-- Claim C3: when `updateDatabase` with `del_absent=true` runs on an
existing store and commits (no exception interrupts the pass), the
present-record key set of the resulting store equals exactly the key set
of the live files: every live file's key is present and nothing else
remains. -/
theorem updateDatabase_set_exact (db : List Row) (files : List FileInfo)
    (out : List Row) (h : updateDatabaseRun db files true = some out) :
    presentKeys out = fileKeys files := by
  unfold updateDatabaseRun at h
  obtain ⟨u, hrun, hout⟩ := Option.map_eq_some'.mp h
  rw [updateRowsE_ok files (markAllAbsent db) u hrun] at hout
  rw [← hout]
  show presentKeys
      ((updateRows (markAllAbsent db) files).filter fun r => r.present) = _
  rw [presentKeys_filter_present]
  exact presentKeys_updateRows db files

/-- Claim C3, witness at a concrete input. -/
theorem updateDatabase_set_exact_witness :
    presentKeys [mkRow ⟨"d", "a", 0, some "aa"⟩ "aa"] =
      fileKeys [⟨"d", "a", 0, some "aa"⟩] :=
  updateDatabase_set_exact [] [⟨"d", "a", 0, some "aa"⟩]
    [mkRow ⟨"d", "a", 0, some "aa"⟩ "aa"] rfl

/-- Claim C6 (amended): a hash-computation failure during an update pass
on an existing store is not isolated to that file: the exception aborts
the pass, and because the single commit sits at the end of the pass, the
observable store is all-or-nothing — either it is left exactly as it was
(no record of the batch, already-processed or not, is committed) or the
full pass is committed. -/
theorem updateDatabase_all_or_nothing (db : List Row) (files : List FileInfo)
    (del_absent : Bool) :
    updateDatabase db files del_absent = db ∨
      updateDatabase db files del_absent = updateDatabaseOk db files del_absent := by
  unfold updateDatabase updateDatabaseRun updateDatabaseOk
  cases hrun : updateRowsE (markAllAbsent db) files with
  | none =>
    left
    rfl
  | some u =>
    right
    rw [updateRowsE_ok files (markAllAbsent db) u hrun]
    rfl

/-- Claim C6, counterexample: an empty pre-existing store and three
files, of which the middle one cannot be hashed.  The pass aborts and
commits nothing: the first (already processed) and third (never reached)
file leave no record in the store, contradicting the claimed isolation of
the failure. -/
theorem updateDatabase_abort_counterexample :
    updateDatabase []
        [⟨"d", "a", 0, some "aa"⟩, ⟨"d", "b", 0, none⟩, ⟨"d", "c", 0, some "cc"⟩]
        true = [] ∧
      hasKey
        (updateDatabase []
          [⟨"d", "a", 0, some "aa"⟩, ⟨"d", "b", 0, none⟩, ⟨"d", "c", 0, some "cc"⟩]
          true) ("d", "a") = false := by
  exact ⟨rfl, rfl⟩

theorem dirRowsE_eq :
    ∀ d : List FileInfo, dirRowsE d = if dirOk d then some (dirRows d) else none
  | [] => rfl
  | f :: fs => by
    cases hres : f.hashResult with
    | none => simp [dirRowsE, dirOk, hres]
    | some h =>
      by_cases hok : dirOk fs <;>
        simp [dirRowsE, dirOk, dirRows, hres, dirRowsE_eq fs, hok, hashOr]

theorem insertData2TableE_nil (acc : List Row) :
    insertData2TableE acc [] = some acc := rfl

theorem insertData2TableE_cons (acc : List Row) (r : Row) (rows : List Row) :
    insertData2TableE acc (r :: rows) =
      if hasKey acc r.key then none
      else insertData2TableE (acc ++ [r]) rows := rfl

theorem insertData2TableE_some :
    ∀ (rows acc acc2 : List Row),
      insertData2TableE acc rows = some acc2 → acc2 = acc ++ rows
  | [], acc, acc2, h => by
    rw [insertData2TableE_nil] at h
    rw [← Option.some_inj.mp h]
    simp
  | r :: rows, acc, acc2, h => by
    rw [insertData2TableE_cons] at h
    by_cases hk : hasKey acc r.key
    · rw [if_pos hk] at h
      exact absurd h (by simp)
    · rw [if_neg hk] at h
      have := insertData2TableE_some rows (acc ++ [r]) acc2 h
      rw [this]
      simp

theorem insertData2TableE_ok :
    ∀ (rows acc : List Row),
      (rows.map Row.key).Nodup →
      (∀ k ∈ rows.map Row.key, k ∉ dbKeys acc) →
      insertData2TableE acc rows = some (acc ++ rows)
  | [], acc, _, _ => by simp [insertData2TableE_nil]
  | r :: rows, acc, hnd, hdisj => by
    rw [List.map_cons] at hnd
    obtain ⟨hhead, htail⟩ := List.nodup_cons.mp hnd
    have hk : hasKey acc r.key = false := by
      cases hb : hasKey acc r.key
      · rfl
      · exact absurd ((hasKey_iff acc r.key).mp hb)
          (hdisj r.key (by simp))
    rw [insertData2TableE_cons, if_neg (by simp [hk])]
    have hdisj2 : ∀ k ∈ rows.map Row.key, k ∉ dbKeys (acc ++ [r]) := by
      intro k hkmem hmem
      have hkeys : dbKeys (acc ++ [r]) = dbKeys acc ++ [r.key] := by
        simp [dbKeys]
      rw [hkeys] at hmem
      rcases List.mem_append.mp hmem with hmem | hmem
      · exact hdisj k (by simp [hkmem]) hmem
      · rcases List.mem_singleton.mp hmem with rfl
        exact hhead hkmem
    rw [insertData2TableE_ok rows (acc ++ [r]) htail hdisj2]
    simp

theorem dirRows_keys (d : List FileInfo) :
    (dirRows d).map Row.key = d.map FileInfo.key := by
  unfold dirRows
  rw [List.map_map]
  exact List.map_congr_left fun f _ => rfl

theorem buildGo_cons (acc : List Row) (d : List FileInfo)
    (ds : List (List FileInfo)) :
    buildGo acc (d :: ds) =
      match dirRowsE d with
      | none => acc
      | some rows =>
        match insertData2TableE acc rows with
        | none => acc
        | some acc2 => buildGo acc2 ds := rfl

theorem buildGo_complete :
    ∀ (ds : List (List FileInfo)) (acc : List Row),
      (∀ d ∈ ds, dirOk d = true) →
      (ds.flatten.map FileInfo.key).Nodup →
      (∀ k ∈ ds.flatten.map FileInfo.key, k ∉ dbKeys acc) →
      buildGo acc ds = acc ++ allRows ds
  | [], acc, _, _, _ => by simp [buildGo, allRows]
  | d :: ds, acc, hok, hnd, hdisj => by
    have hokd : dirOk d = true := hok d (List.mem_cons_self d ds)
    have h1 : dirRowsE d = some (dirRows d) := by
      rw [dirRowsE_eq, if_pos hokd]
    have hsplit : ((d :: ds).flatten.map FileInfo.key) =
        d.map FileInfo.key ++ ds.flatten.map FileInfo.key := by
      simp
    rw [hsplit] at hnd hdisj
    obtain ⟨hndd, hndds, hdj⟩ := List.nodup_append.mp hnd
    have h2 : insertData2TableE acc (dirRows d) = some (acc ++ dirRows d) := by
      refine insertData2TableE_ok (dirRows d) acc (by rw [dirRows_keys]; exact hndd) ?_
      rw [dirRows_keys]
      intro k hk
      exact hdisj k (List.mem_append_left _ hk)
    have hstep : buildGo acc (d :: ds) = buildGo (acc ++ dirRows d) ds := by
      rw [buildGo_cons, h1]
      show (match insertData2TableE acc (dirRows d) with
        | none => acc
        | some acc2 => buildGo acc2 ds) = _
      rw [h2]
    rw [hstep]
    rw [buildGo_complete ds (acc ++ dirRows d)
      (fun g hg => hok g (List.mem_cons_of_mem d hg))
      hndds
      (fun k hk hmem => by
        have hkeys : dbKeys (acc ++ dirRows d) =
            dbKeys acc ++ d.map FileInfo.key := by
          unfold dbKeys
          rw [List.map_append, dirRows_keys]
        rw [hkeys] at hmem
        rcases List.mem_append.mp hmem with hmem | hmem
        · exact hdisj k (List.mem_append_right _ hk) hmem
        · exact hdj hmem hk)]
    simp [allRows]

theorem buildGo_take :
    ∀ (ds : List (List FileInfo)) (acc : List Row),
      ∃ n, n ≤ ds.length ∧ buildGo acc ds = acc ++ allRows (ds.take n)
  | [], acc => ⟨0, by simp [buildGo, allRows]⟩
  | d :: ds, acc => by
    cases h1 : dirRowsE d with
    | none =>
      refine ⟨0, by simp, ?_⟩
      rw [buildGo_cons, h1]
      simp [allRows]
    | some rows =>
      cases h2 : insertData2TableE acc rows with
      | none =>
        refine ⟨0, by simp, ?_⟩
        rw [buildGo_cons, h1]
        show (match insertData2TableE acc rows with
          | none => acc
          | some acc2 => buildGo acc2 ds) = _
        rw [h2]
        simp [allRows]
      | some acc2 =>
        obtain ⟨n, hn, hgo⟩ := buildGo_take ds acc2
        have hrows : rows = dirRows d := by
          rw [dirRowsE_eq] at h1
          by_cases hok : dirOk d
          · rw [if_pos hok] at h1
            exact (Option.some_inj.mp h1).symm
          · rw [if_neg hok] at h1
            exact absurd h1 (by simp)
        have hacc2 : acc2 = acc ++ rows := insertData2TableE_some rows acc acc2 h2
        refine ⟨n + 1, by simpa using hn, ?_⟩
        have hstep : buildGo acc (d :: ds) = buildGo acc2 ds := by
          rw [buildGo_cons, h1]
          show (match insertData2TableE acc rows with
            | none => acc
            | some acc2 => buildGo acc2 ds) = _
          rw [h2]
        rw [hstep, hgo, hacc2, hrows, List.take_succ_cons]
        simp [allRows]

/-- Claim C7 (amended): a full rebuild is not atomic and never preserves
the old store — `createTable` deletes the existing `img.db` before any
row is written.  When every hash succeeds and the enumerated composite
keys are pairwise distinct, every directory commits and the store is
exactly the enumerated rows; otherwise the rebuild aborts at the first
hash failure or duplicate-key `IntegrityError`, and the store holds
exactly the rows of the directory prefix committed before the failure. -/
theorem buildDatabase_partial_commit (dirs : List (List FileInfo)) :
    (dirs.all dirOk = true → (dirs.flatten.map FileInfo.key).Nodup →
      buildDatabase dirs = allRows dirs) ∧
    ∃ n, n ≤ dirs.length ∧ buildDatabase dirs = allRows (dirs.take n) := by
  constructor
  · intro hok hnd
    have hgo := buildGo_complete dirs []
      (fun d hd => (List.all_eq_true.mp hok) d hd) hnd
      (by simp [dbKeys])
    simpa [buildDatabase] using hgo
  · obtain ⟨n, hn, hgo⟩ := buildGo_take dirs []
    exact ⟨n, hn, by simpa [buildDatabase] using hgo⟩

/-- Claim C7, witness: one directory with one hashable, distinct-keyed
file — the completion case and the prefix bound are both exercised. -/
theorem buildDatabase_partial_commit_witness :
    (buildDatabase [[⟨"d", "a.png", 0, some "aa"⟩]] =
        allRows [[⟨"d", "a.png", 0, some "aa"⟩]]) ∧
      ∃ n, n ≤ ([[⟨"d", "a.png", 0, some "aa"⟩]] : List (List FileInfo)).length ∧
        buildDatabase [[⟨"d", "a.png", 0, some "aa"⟩]] =
          allRows (([[⟨"d", "a.png", 0, some "aa"⟩]] :
            List (List FileInfo)).take n) :=
  ⟨(buildDatabase_partial_commit [[⟨"d", "a.png", 0, some "aa"⟩]]).1 rfl
      (by decide),
    (buildDatabase_partial_commit [[⟨"d", "a.png", 0, some "aa"⟩]]).2⟩

/-- Claim C7, counterexample: a store holding one row is rebuilt from a
single directory whose only file fails to hash.  The rebuild neither
completes (a hash fails) nor leaves the old store intact: the post-state
is the empty store, not the old row. -/
theorem buildDatabase_not_atomic :
    ¬ ((([[⟨"d", "b", 0, none⟩]] : List (List FileInfo)).all dirOk = true ∧
          buildDatabase [[⟨"d", "b", 0, none⟩]] = allRows [[⟨"d", "b", 0, none⟩]]) ∨
        buildDatabase [[⟨"d", "b", 0, none⟩]] = [⟨"old", "row", "00", 1, true⟩]) := by
  decide

theorem hasKey_eq_of_dbKeys_eq (db1 db2 : List Row)
    (h : dbKeys db1 = dbKeys db2) (k : String × String) :
    hasKey db1 k = hasKey db2 k := by
  have h1 := hasKey_iff db1 k
  have h2 := hasKey_iff db2 k
  rw [h] at h1
  cases hb1 : hasKey db1 k <;> cases hb2 : hasKey db2 k <;> simp_all

theorem updateRowsE_all_found :
    ∀ (fs : List FileInfo) (db : List Row),
      (∀ f ∈ fs, hasKey db f.key = true) →
      updateRowsE db fs = some (updateRows db fs)
  | [], _, _ => rfl
  | f :: fs, db, h => by
    have hf := h f (List.mem_cons_self f fs)
    have hpe : processFileE db f = some (setPresent db f.key) := by
      unfold processFileE
      rw [if_pos hf]
    rw [updateRowsE_cons, hpe]
    show updateRowsE (setPresent db f.key) fs = some (updateRows db (f :: fs))
    have hnext : ∀ g ∈ fs, hasKey (setPresent db f.key) g.key = true := fun g hg => by
      rw [hasKey_eq_of_dbKeys_eq _ db (dbKeys_setPresent db f.key) g.key]
      exact h g (List.mem_cons_of_mem f hg)
    rw [updateRowsE_all_found fs _ hnext]
    have hpp : processFile db f = setPresent db f.key := by
      unfold processFile
      rw [if_pos hf]
    rw [show updateRows db (f :: fs) = updateRows (processFile db f) fs from rfl, hpp]

theorem map_reviveBy_markAllAbsent (R : List Row) (files : List FileInfo)
    (h : ∀ r ∈ R, r.present = matchedBy files r) :
    (markAllAbsent R).map (reviveBy files) = R := by
  unfold markAllAbsent
  rw [List.map_map]
  have hpt : ∀ r ∈ R,
      (reviveBy files ∘ fun r => { r with present := false }) r = r := by
    intro r hr
    rw [Function.comp_apply]
    by_cases hm : matchedBy files r
    · rw [reviveBy, if_pos (by rw [matchedBy_set_present]; exact hm)]
      have hp : r.present = true := by rw [h r hr, hm]
      cases r
      simp_all
    · rw [reviveBy, if_neg (by rw [matchedBy_set_present]; exact hm)]
      have hp : r.present = false := by
        rw [h r hr]
        exact (Bool.not_eq_true _).mp hm
      cases r
      simp_all
  exact (List.map_congr_left hpt).trans (List.map_id R)

/-- A store whose rows are present exactly when matched by the live files
(and all present when the pass deletes absents), and which already holds
every live key, is a fixed point of `updateDatabase`. -/
theorem updateDatabase_fix (R : List Row) (files : List FileInfo) (del : Bool)
    (h1 : ∀ f ∈ files, f.key ∈ dbKeys R)
    (h2 : ∀ r ∈ R, r.present = matchedBy files r)
    (h3 : del = true → ∀ r ∈ R, r.present = true) :
    updateDatabase R files del = R := by
  have hkeys : ∀ f ∈ files, hasKey (markAllAbsent R) f.key = true := fun f hf => by
    rw [hasKey_eq_of_dbKeys_eq _ R (dbKeys_markAllAbsent R)]
    exact (hasKey_iff R f.key).mpr (h1 f hf)
  have hE := updateRowsE_all_found files (markAllAbsent R) hkeys
  have hpure : updateRows (markAllAbsent R) files = R := by
    rw [updateRows_char, dbKeys_markAllAbsent,
      insertedRows_eq_nil files (dbKeys R) h1, List.append_nil]
    exact map_reviveBy_markAllAbsent R files h2
  unfold updateDatabase updateDatabaseRun
  rw [hE, hpure]
  cases del with
  | false => rfl
  | true =>
    have hfix : R.filter (fun r => r.present) = R :=
      List.filter_eq_self.mpr fun r hr => h3 rfl r hr
    simp [hfix]

theorem updateDatabase_twice (db : List Row) (files : List FileInfo) (del : Bool) :
    updateDatabase (updateDatabase db files del) files del =
      updateDatabase db files del := by
  unfold updateDatabase updateDatabaseRun
  cases hrun : updateRowsE (markAllAbsent db) files with
  | none =>
    show updateDatabase db files del = db
    unfold updateDatabase updateDatabaseRun
    rw [hrun]
    rfl
  | some u =>
    rw [updateRowsE_ok files (markAllAbsent db) u hrun]
    show updateDatabase (updateDatabaseOk db files del) files del =
      updateDatabaseOk db files del
    have hB : ∀ r ∈ updateDatabaseOk db files del,
        r.present = matchedBy files r := by
      intro r hr
      apply present_updateRows db files r
      unfold updateDatabaseOk at hr
      cases del with
      | false => exact hr
      | true => exact List.mem_of_mem_filter hr
    have hC : del = true → ∀ r ∈ updateDatabaseOk db files del,
        r.present = true := by
      intro hdel r hr
      unfold updateDatabaseOk at hr
      rw [hdel] at hr
      exact (List.mem_filter.mp (by simpa using hr)).2
    have hA : ∀ f ∈ files, f.key ∈ dbKeys (updateDatabaseOk db files del) := by
      intro f hf
      have hk : f.key ∈ presentKeys (updateRows (markAllAbsent db) files) := by
        rw [presentKeys_updateRows]
        exact List.mem_toFinset.mpr (List.mem_map.mpr ⟨f, hf, rfl⟩)
      obtain ⟨r, hrmem, hrkey⟩ := List.mem_map.mp (List.mem_toFinset.mp hk)
      unfold updateDatabaseOk
      cases del with
      | false =>
        exact List.mem_map.mpr ⟨r, List.mem_of_mem_filter hrmem, hrkey⟩
      | true => exact List.mem_map.mpr ⟨r, hrmem, hrkey⟩
    exact updateDatabase_fix _ files del hA hB hC

/-- Claim C8 (amended): `updateDatabase` is idempotent for every
pre-existing store unconditionally (even when a hash failure aborts both
runs identically), and for an absent store whenever the initial full
build commits every directory: every hash succeeds and the enumerated
composite keys are pairwise distinct.  When the initial build instead
aborts partway — as with overlapping `img_dirs` — the second run can
extend the partial store and the snapshots differ, so the hypothesis on
the build path is necessary. -/
theorem updateDatabase_idempotent (st : Option (List Row))
    (dirs : List (List FileInfo)) (del : Bool)
    (hbuild : st = none →
      dirs.all dirOk = true ∧ (dirs.flatten.map FileInfo.key).Nodup) :
    updateDatabaseOpt (some (updateDatabaseOpt st dirs del)) dirs del =
      updateDatabaseOpt st dirs del := by
  cases st with
  | some db => exact updateDatabase_twice db dirs.flatten del
  | none =>
    obtain ⟨hall, hnd⟩ := hbuild rfl
    show updateDatabase (buildDatabase dirs) dirs.flatten del = buildDatabase dirs
    have hbd : buildDatabase dirs = allRows dirs := by
      have hgo := buildGo_complete dirs []
        (fun d hd => (List.all_eq_true.mp hall) d hd) hnd
        (by simp [dbKeys])
      simpa [buildDatabase] using hgo
    rw [hbd]
    have hmemrows : ∀ r ∈ allRows dirs, ∃ f ∈ dirs.flatten,
        r = mkRow f (hashOr f) := by
      intro r hr
      obtain ⟨l, hl, hrl⟩ := List.mem_flatten.mp hr
      obtain ⟨d, hd, rfl⟩ := List.mem_map.mp hl
      obtain ⟨f, hf, rfl⟩ := List.mem_map.mp hrl
      exact ⟨f, List.mem_flatten.mpr ⟨d, hd, hf⟩, rfl⟩
    apply updateDatabase_fix
    · intro f hf
      obtain ⟨d, hd, hfd⟩ := List.mem_flatten.mp hf
      refine List.mem_map.mpr ⟨mkRow f (hashOr f), ?_, rfl⟩
      exact List.mem_flatten.mpr
        ⟨dirRows d, List.mem_map.mpr ⟨d, hd, rfl⟩, List.mem_map.mpr ⟨f, hfd, rfl⟩⟩
    · intro r hr
      obtain ⟨f, hf, rfl⟩ := hmemrows r hr
      have : matchedBy dirs.flatten (mkRow f (hashOr f)) = true := by
        rw [matchedBy_iff]
        exact List.mem_map.mpr ⟨f, hf, rfl⟩
      rw [this]
      rfl
    · intro _ r hr
      obtain ⟨f, _, rfl⟩ := hmemrows r hr
      rfl

/-- Claim C8, witness at a concrete input: an absent store followed by
two syncs over one directory with one hashable file. -/
theorem updateDatabase_idempotent_witness :
    updateDatabaseOpt
        (some (updateDatabaseOpt none [[⟨"d", "a", 0, some "aa"⟩]] true))
        [[⟨"d", "a", 0, some "aa"⟩]] true =
      updateDatabaseOpt none [[⟨"d", "a", 0, some "aa"⟩]] true :=
  updateDatabase_idempotent none [[⟨"d", "a", 0, some "aa"⟩]] true
    fun _ => ⟨rfl, by decide⟩

/-- Claim C8, counterexample: an absent store synced twice over
overlapping directories — the second directory re-enumerates the first
directory's file under the same composite key.  The first run is a full
build that commits the first directory and then aborts on the
duplicate-key `IntegrityError` while inserting the second (one row);
the second run takes the update path, revives that row and inserts the
second directory's fresh file (two rows), so the snapshot after the
second run differs from the snapshot after the first. -/
theorem updateDatabase_not_idempotent :
    updateDatabaseOpt
        (some (updateDatabaseOpt none
          [[⟨"p/s", "a.png", 0, some "aa"⟩],
            [⟨"p", "b.png", 0, some "bb"⟩, ⟨"p/s", "a.png", 0, some "aa"⟩]]
          true))
        [[⟨"p/s", "a.png", 0, some "aa"⟩],
          [⟨"p", "b.png", 0, some "bb"⟩, ⟨"p/s", "a.png", 0, some "aa"⟩]]
        true ≠
      updateDatabaseOpt none
        [[⟨"p/s", "a.png", 0, some "aa"⟩],
          [⟨"p", "b.png", 0, some "bb"⟩, ⟨"p/s", "a.png", 0, some "aa"⟩]]
        true := by
  intro h
  have h2 : (2 : Nat) = 1 := congrArg List.length h
  exact absurd h2 (by decide)

/-- Claim C9: the report consists of the header row
`input_path, match_path, match_directory, match_filename` followed by one
row per (query, match) pair; within the block of rows of one query, the
row of match `i` holds the joined input path in its first cell when
`i = 0` and a blank (`None`) first cell for every later match, the other
three cells being the match's joined path, directory, and filename. -/
theorem saveMatches2csv_report
    (h2p h2f : List (String × List (String × String)))
    (path : String) (found : List (String × String)) (i : Nat)
    (m : String × String) (hm : found[i]? = some m) :
    (saveMatches2csv h2p h2f).head? = some headerRow ∧
      (saveMatches2csv h2p h2f).length =
        1 + (h2p.map fun q => (lookupFound h2f q.1).length).sum ∧
      (rowsForQuery path found).length = found.length ∧
      (rowsForQuery path found)[i]? =
        some [if i = 0 then some path else none, some (joinPath m.1 m.2),
          some m.1, some m.2] := by
  refine ⟨rfl, ?_, by simp [rowsForQuery], ?_⟩
  · simp only [saveMatches2csv, List.length_cons, List.length_flatMap]
    have hlen : (List.map (List.length ∘ fun q =>
        rowsForQuery
          (String.intercalate " | " (q.2.map fun ck => joinPath ck.1 ck.2))
          (lookupFound h2f q.1)) h2p) =
        List.map (fun q => (lookupFound h2f q.1).length) h2p :=
      List.map_congr_left fun q _ => by simp [rowsForQuery]
    rw [hlen]
    omega
  · rw [rowsForQuery, List.getElem?_map, List.getElem?_enum, hm]
    by_cases hi : i = 0 <;> simp [hi]

/-- Claim C9, witness: a query with two matches — the first row carries
the input path, the second leaves it blank. -/
theorem saveMatches2csv_report_witness :
    ((saveMatches2csv [("aa", [("q", "x.png")])]
          [("aa", [("d", "1.png"), ("d", "2.png")])]).head? = some headerRow ∧
        (saveMatches2csv [("aa", [("q", "x.png")])]
          [("aa", [("d", "1.png"), ("d", "2.png")])]).length =
          1 + ([("aa", [("q", "x.png")])].map fun q =>
            (lookupFound [("aa", [("d", "1.png"), ("d", "2.png")])] q.1).length).sum ∧
        (rowsForQuery "q/x.png" [("d", "1.png"), ("d", "2.png")]).length =
          [("d", "1.png"), ("d", "2.png")].length ∧
        (rowsForQuery "q/x.png" [("d", "1.png"), ("d", "2.png")])[1]? =
          some [if 1 = 0 then some "q/x.png" else none,
            some (joinPath "d" "2.png"), some "d", some "2.png"]) :=
  saveMatches2csv_report [("aa", [("q", "x.png")])]
    [("aa", [("d", "1.png"), ("d", "2.png")])] "q/x.png"
    [("d", "1.png"), ("d", "2.png")] 1 ("d", "2.png") rfl

end RevImgSearch
